import Mathlib

/-!
Verification development for the audio-player core: the command-driven
playback engine (`EngineState.handle_command`, `EngineState.fill_buffer`)
and the multi-resolution waveform peak cache (`WaveformPeaks`).

Samples and times are modelled as rationals (the code's f32/f64 values);
machine casts `as usize` are modelled by `ratToUsize` (floor, saturating
at zero, exactly the behaviour of Rust's float-to-usize cast on the
values that occur here). The external SoundTouch DSP block is not part of
the repository: its observable output at each `receive_samples` call is an
arbitrary oracle (`StretchOracle`), and the samples it has been fed since
the last clear are tracked in `Stretcher.fed` (modelled from the spec:
`clear()` discards the adapter's internal state, `put` feeds input).
-/

/-- A single peak entry: min and max sample values for a range of frames. -/
structure Peak where
  min : ℚ
  max : ℚ
deriving Repr, DecidableEq

/-- The value of `f32::MAX`, used by the code as the fold seed for minima. -/
def f32Max : ℚ := 340282346638528859811704183484516925440

/-- The value of `f32::MIN`, used by the code as the fold seed for maxima. -/
def f32Min : ℚ := -f32Max

/-- Rust's `slice::chunks_exact`: consecutive chunks of size `n`, the
remainder dropped. -/
def chunksExact (n : ℕ) (xs : List ℚ) : List (List ℚ) :=
  if h : 0 < n ∧ n ≤ xs.length then xs.take n :: chunksExact n (xs.drop n) else []
termination_by xs.length
decreasing_by
  simp only [List.length_drop]
  omega

/-- Rust's `slice::chunks`: consecutive chunks of size `n`, the final chunk
possibly shorter. -/
def chunksList (n : ℕ) (xs : List ℚ) : List (List ℚ) :=
  if h : 0 < n ∧ xs ≠ [] then xs.take n :: chunksList n (xs.drop n) else []
termination_by xs.length
decreasing_by
  simp only [List.length_drop]
  have := List.length_pos.mpr h.2
  omega

/-- Decoded audio data stored entirely in memory (`AudioData` in
`audio/types.rs`). -/
structure AudioData where
  samples : List ℚ
  sample_rate : ℕ
  channels : ℕ
  duration : ℚ
deriving Repr, DecidableEq

/-- Total number of frames (samples per channel). -/
def AudioData.num_frames (a : AudioData) : ℕ := a.samples.length / a.channels

/-- Mix down to mono, one sample per frame (`AudioData::to_mono`). -/
def AudioData.to_mono (a : AudioData) : List ℚ :=
  if a.channels = 1 then a.samples
  else (chunksExact a.channels a.samples).map (fun frame => frame.sum / (a.channels : ℚ))

/-- `compute_peaks_at_resolution` of `waveform_cache.rs`: for each chunk of
`samples_per_peak` mono samples, fold min/max starting from the
`f32::MAX`/`f32::MIN` seeds, exactly as the source loop does. -/
def compute_peaks_at_resolution (mono : List ℚ) (samples_per_peak : ℕ) : List Peak :=
  (chunksList samples_per_peak mono).map (fun chunk =>
    let mm := chunk.foldl
      (fun (mm : ℚ × ℚ) s => (if s < mm.1 then s else mm.1, if s > mm.2 then s else mm.2))
      (f32Max, f32Min)
    { min := mm.1, max := mm.2 })

/-- Pre-computed peaks at multiple resolutions; each entry of `levels` is
`(samples_per_peak, peaks)`. -/
structure WaveformPeaks where
  levels : List (ℕ × List Peak)
deriving Repr, DecidableEq

/-- Resolution levels: number of mono samples per peak. -/
def RESOLUTIONS : List ℕ := [64, 256, 1024, 4096]

/-- `WaveformPeaks::compute`. -/
def WaveformPeaks.compute (audio : AudioData) : WaveformPeaks :=
  { levels := RESOLUTIONS.map (fun spp => (spp, compute_peaks_at_resolution audio.to_mono spp)) }

/-- Rust's saturating float-to-usize cast `x as usize` for the values in
range here: truncation, with negative values saturating to zero, which
`Int.toNat` of the floor expresses. -/
def ratToUsize (x : ℚ) : ℕ := ⌊x⌋.toNat

/-- The level lookup inside `WaveformPeaks::peaks_for_width` (lines 56-61):
scan the levels in reverse (coarsest first), take the first whose
`samples_per_peak ≤ target_spp * 2`, fall back to `levels[0]`. -/
def selectLevel (levels : List (ℕ × List Peak)) (target_spp : ℚ) : ℕ × List Peak :=
  (levels.reverse.find? (fun l => decide ((l.1 : ℚ) ≤ target_spp * 2))).getD
    (levels.headD (0, []))

/-- `WaveformPeaks::peaks_for_width`. -/
def WaveformPeaks.peaks_for_width (wp : WaveformPeaks) (canvas_width : ℚ)
    (total_frames : ℕ) : List Peak :=
  if total_frames = 0 ∨ canvas_width ≤ 0 then []
  else
    let target_spp : ℚ := (total_frames : ℚ) / canvas_width
    let base_peaks := (selectLevel wp.levels target_spp).2
    let width := ratToUsize canvas_width
    (List.range width).map (fun (i : ℕ) =>
      let frac_start : ℚ := (i : ℚ) / (width : ℚ)
      let frac_end : ℚ := ((i : ℚ) + 1) / (width : ℚ)
      let peak_start := ratToUsize (frac_start * (base_peaks.length : ℚ))
      let peak_end := Nat.min (ratToUsize (frac_end * (base_peaks.length : ℚ))) base_peaks.length
      if base_peaks.length ≤ peak_start then { min := 0, max := 0 }
      else
        let slice := (base_peaks.drop peak_start).take (Nat.max peak_end (peak_start + 1) - peak_start)
        let mm := slice.foldl
          (fun (mm : ℚ × ℚ) p => (Min.min mm.1 p.min, Max.max mm.2 p.max)) (f32Max, f32Min)
        { min := mm.1, max := mm.2 })

/-- The samples-per-peak of the level `peaks_for_width` resamples from, for
a given canvas width and frame count (its `target_spp` is computed exactly
as inside `peaks_for_width`). -/
def selectedSppFor (wp : WaveformPeaks) (canvas_width : ℚ) (total_frames : ℕ) : ℕ :=
  (selectLevel wp.levels ((total_frames : ℚ) / canvas_width)).1

/-- Closed form of the code's level choice over the four fixed resolutions. -/
def selSpp (t : ℚ) : ℕ :=
  if (4096 : ℚ) ≤ t * 2 then 4096
  else if (1024 : ℚ) ≤ t * 2 then 1024
  else if (256 : ℚ) ≤ t * 2 then 256
  else 64

/-- Level choice as the specification's sentence reads with "finest"
meaning largest `samples_per_peak` of the qualifying levels (the coarsest
qualifying level), falling back to the finest available level: the rule
the code actually implements. -/
def specCoarsestSatisfying (levels : List (ℕ × List Peak)) (t : ℚ) : ℕ :=
  match (levels.map Prod.fst).filter (fun (r : ℕ) => decide ((r : ℚ) ≤ t * 2)) with
  | [] =>
    match levels.map Prod.fst with
    | [] => 0
    | x :: xs => xs.foldl Nat.min x
  | x :: xs => xs.foldl Nat.max x

/-- Level choice exactly as the claim words it: the finest level (smallest
`samples_per_peak`) among those with `samples_per_peak ≤ 2 × target_spp`,
falling back to the finest available level when none qualifies. -/
def specFinestSatisfying (levels : List (ℕ × List Peak)) (t : ℚ) : ℕ :=
  match (levels.map Prod.fst).filter (fun (r : ℕ) => decide ((r : ℚ) ≤ t * 2)) with
  | [] =>
    match levels.map Prod.fst with
    | [] => 0
    | x :: xs => xs.foldl Nat.min x
  | x :: xs => xs.foldl Nat.min x

/-- Events sent from the audio thread to the UI thread. -/
inductive AudioEvent where
  | PositionChanged (time : ℚ)
  | PlaybackFinished
  | Error (message : String)
deriving Repr, DecidableEq

/-- Commands sent from the UI thread to the audio thread. -/
inductive AudioCommand where
  | LoadAudio (data : AudioData)
  | Play
  | Pause
  | Stop
  | Seek (time : ℚ)
  | SetTempo (tempo : ℚ)
  | SetLoopRegion (region : Option (ℚ × ℚ))
  | Shutdown
deriving Repr, DecidableEq

/-- The `Stretcher` wrapper of `audio/stretcher.rs`: sample rate, channel
count and tempo configuration, plus (modelled from the spec, since
SoundTouch itself is external) `fed`, the interleaved input buffered since
the last `clear`. -/
structure Stretcher where
  sample_rate : ℕ
  channels : ℕ
  tempo : ℚ
  fed : List ℚ
deriving Repr, DecidableEq

/-- `Stretcher::new`: configure rate and channels, tempo starts at 1.0. -/
def Stretcher.new (sample_rate : ℕ) (channels : ℕ) : Stretcher :=
  { sample_rate := sample_rate, channels := channels, tempo := 1, fed := [] }

/-- `Stretcher::set_tempo`. -/
def Stretcher.set_tempo (s : Stretcher) (tempo : ℚ) : Stretcher := { s with tempo := tempo }

/-- `Stretcher::put_samples`: feed interleaved input. -/
def Stretcher.put_samples (s : Stretcher) (samples : List ℚ) : Stretcher :=
  { s with fed := s.fed ++ samples }

/-- `Stretcher::clear`: discard all buffered data. -/
def Stretcher.clear (s : Stretcher) : Stretcher := { s with fed := [] }

/-- Size of chunks fed into SoundTouch at a time. -/
def CHUNK_SIZE : ℕ := 1024

/-- How often (in output frames) to send position updates. -/
def POSITION_UPDATE_INTERVAL : ℕ := 2048

/-- The engine-thread state (`EngineState` in `audio/engine.rs`). -/
structure EngineState where
  audio : Option AudioData
  position : ℕ
  playing : Bool
  tempo : ℚ
  loop_region : Option (ℕ × ℕ)
  stretcher : Option Stretcher
  output_sample_rate : ℕ
  frames_since_update : ℕ
deriving Repr, DecidableEq

/-- `EngineState::new`. -/
def EngineState.new (output_sample_rate : ℕ) : EngineState :=
  { audio := none, position := 0, playing := false, tempo := 1,
    loop_region := none, stretcher := none,
    output_sample_rate := output_sample_rate, frames_since_update := 0 }

/-- `EngineState::handle_command`; the returned list holds the events sent
on `event_tx`, in order. -/
def EngineState.handle_command (st : EngineState) (cmd : AudioCommand) :
    EngineState × List AudioEvent :=
  match cmd with
  | .LoadAudio data =>
    let sr := data.sample_rate
    let ch := data.channels
    let stretcher := (Stretcher.new sr ch).set_tempo st.tempo
    ({ st with audio := some data, position := 0, playing := false,
               loop_region := none, stretcher := some stretcher }, [])
  | .Play =>
    (if st.audio.isSome then { st with playing := true } else st, [])
  | .Pause =>
    ({ st with playing := false }, [])
  | .Stop =>
    ({ st with playing := false, position := 0,
               stretcher := st.stretcher.map Stretcher.clear },
     [AudioEvent.PositionChanged 0])
  | .Seek time =>
    match st.audio with
    | some audio =>
      let frame := ratToUsize (time * (audio.sample_rate : ℚ))
      let position := Nat.min frame audio.num_frames
      let pos_secs := (position : ℚ) / (audio.sample_rate : ℚ)
      ({ st with position := position, stretcher := st.stretcher.map Stretcher.clear },
       [AudioEvent.PositionChanged pos_secs])
    | none => (st, [])
  | .SetTempo tempo =>
    ({ st with tempo := tempo, stretcher := st.stretcher.map (fun s => s.set_tempo tempo) }, [])
  | .SetLoopRegion region =>
    match st.audio with
    | some audio =>
      let lr := region.map (fun r =>
        let sr : ℚ := (audio.sample_rate : ℚ)
        let start_frame := ratToUsize (r.1 * sr)
        let end_frame := ratToUsize (r.2 * sr)
        (start_frame, Nat.min end_frame audio.num_frames))
      ({ st with loop_region := lr }, [])
    | none => (st, [])
  | .Shutdown => (st, [])

/-- The observable behaviour of the external DSP block: `recv k` is the
interleaved sample list the `k`-th `receive_samples` call of one
`fill_buffer` invocation makes available (possibly empty, never blocking). -/
structure StretchOracle where
  recv : ℕ → List ℚ

/-- The mutable state of one pass through `fill_buffer`'s fill loop. -/
structure FillSt where
  es : EngineState
  output : List ℚ
  out_pos : ℕ
  k : ℕ
  events : List AudioEvent

/-- Result of one iteration of the fill loop: keep looping, or return from
`fill_buffer`. -/
inductive StepRes where
  | cont (s : FillSt)
  | done (s : FillSt)

/-- The copy loop writing received frames to the output with cyclic channel
remapping: `output[(out_pos + f) * out_channels + c] = recv[f * audio_channels
+ c % audio_channels]`. -/
def writeFrames (output : List ℚ) (recv : List ℚ) (out_pos out_channels audio_channels
    got_frames : ℕ) : List ℚ :=
  (List.range got_frames).foldl (fun acc f =>
    (List.range out_channels).foldl (fun acc2 c =>
      acc2.set ((out_pos + f) * out_channels + c)
        (recv.getD (f * audio_channels + c % audio_channels) 0)) acc) output

/-- Zero every output sample from index `i` on (the silence fill on
end-of-stream). -/
def zeroFrom (l : List ℚ) (i : ℕ) : List ℚ :=
  l.take i ++ List.replicate (l.length - i) 0

/-- Feeding `feed_frames` frames from the current position into the
stretcher and advancing the position. -/
def feedState (audio : AudioData) (s : FillSt) (feed_frames : ℕ) : FillSt :=
  let start_sample := s.es.position * audio.channels
  let chunk := (audio.samples.drop start_sample).take (feed_frames * audio.channels)
  { es := { s.es with
              position := s.es.position + feed_frames,
              stretcher := s.es.stretcher.map (fun str => str.put_samples chunk) },
    output := s.output, out_pos := s.out_pos, k := s.k + 1, events := s.events }

/-- One iteration of the `while out_pos < out_frames` loop in
`EngineState::fill_buffer` (lines 132-195): receive first; if nothing came,
check end-of-stream and the loop region, else feed a chunk. -/
def fillStep (o : StretchOracle) (audio : AudioData) (out_channels out_frames : ℕ)
    (s : FillSt) : StepRes :=
  let audio_channels := audio.channels
  let total_frames := audio.num_frames
  let needed := out_frames - s.out_pos
  let r := o.recv s.k
  let got_frames := Nat.min (r.length / audio_channels) needed
  if 0 < got_frames then
    let output := writeFrames s.output r s.out_pos out_channels audio_channels got_frames
    let fsu := s.es.frames_since_update + got_frames
    if POSITION_UPDATE_INTERVAL ≤ fsu then
      .cont { es := { s.es with frames_since_update := 0 }, output := output,
              out_pos := s.out_pos + got_frames, k := s.k + 1,
              events := s.events ++
                [AudioEvent.PositionChanged ((s.es.position : ℚ) / (audio.sample_rate : ℚ))] }
    else
      .cont { es := { s.es with frames_since_update := fsu }, output := output,
              out_pos := s.out_pos + got_frames, k := s.k + 1, events := s.events }
  else if total_frames ≤ s.es.position then
    match s.es.loop_region with
    | some (start, _) =>
      .cont { es := { s.es with
                        position := start,
                        stretcher := s.es.stretcher.map Stretcher.clear },
              output := s.output, out_pos := s.out_pos, k := s.k + 1, events := s.events }
    | none =>
      .done { es := { s.es with playing := false },
              output := zeroFrom s.output (s.out_pos * out_channels),
              out_pos := s.out_pos, k := s.k + 1,
              events := s.events ++ [AudioEvent.PlaybackFinished] }
  else
    match s.es.loop_region with
    | some (start, e) =>
      if e ≤ s.es.position then
        .cont { es := { s.es with
                          position := start,
                          stretcher := s.es.stretcher.map Stretcher.clear },
                output := s.output, out_pos := s.out_pos, k := s.k + 1, events := s.events }
      else
        .cont (feedState audio s (Nat.min (Nat.min CHUNK_SIZE (total_frames - s.es.position))
          (e - s.es.position)))
    | none =>
      .cont (feedState audio s (Nat.min CHUNK_SIZE (total_frames - s.es.position)))

/-- The fill loop, with explicit fuel: `none` means the iteration bound ran
out before the loop exited (used to express non-termination). -/
def fillLoop (o : StretchOracle) (audio : AudioData) (out_channels out_frames : ℕ) :
    ℕ → FillSt → Option FillSt
  | 0, _ => none
  | fuel + 1, s =>
    if s.out_pos < out_frames then
      match fillStep o audio out_channels out_frames s with
      | .cont s2 => fillLoop o audio out_channels out_frames fuel s2
      | .done s2 => some s2
    else some s

/-- `EngineState::fill_buffer`: silence when not playing, no audio or no
stretcher; otherwise run the fill loop. Returns the updated engine state,
the output buffer contents and the events sent. -/
def EngineState.fill_buffer (st : EngineState) (o : StretchOracle) (fuel : ℕ)
    (output : List ℚ) (channels : ℕ) : Option (EngineState × List ℚ × List AudioEvent) :=
  if ¬ st.playing then some (st, List.replicate output.length 0, [])
  else
    match st.audio with
    | none => some (st, List.replicate output.length 0, [])
    | some audio =>
      match st.stretcher with
      | none => some (st, List.replicate output.length 0, [])
      | some _ =>
        let out_frames := output.length / channels
        (fillLoop o audio channels out_frames fuel
          { es := st, output := output, out_pos := 0, k := 0, events := [] }).map
          (fun s => (s.es, s.output, s.events))

/-- The state an iteration that wraps the loop region leaves behind:
position back at the loop start, stretcher cleared, nothing fed and no
event sent. -/
def wrapSt (s : FillSt) (start : ℕ) : FillSt :=
  { es := { s.es with
              position := start,
              stretcher := s.es.stretcher.map Stretcher.clear },
    output := s.output, out_pos := s.out_pos, k := s.k + 1, events := s.events }

/-- Well-formedness of audio as the decoder produces it (`decoder.rs`
lines 87-95 set `duration = num_frames / sample_rate` with a positive
sample rate and channel count). -/
def AudioWF (a : AudioData) : Prop :=
  0 < a.sample_rate ∧ 0 < a.channels ∧
    a.duration = (a.num_frames : ℚ) / (a.sample_rate : ℚ)

/-- The engine-state invariant: loaded audio is well formed, the position
stays within `[0, num_frames]`, and any loop region's frame endpoints stay
within `[0, num_frames]`. -/
def EngineInv (st : EngineState) : Prop :=
  ∀ a, st.audio = some a →
    AudioWF a ∧ st.position ≤ a.num_frames ∧
    ∀ sf ef, st.loop_region = some (sf, ef) → sf ≤ a.num_frames ∧ ef ≤ a.num_frames

/-- The control surface's pre-validation: loaded audio comes from the
decoder, and loop regions satisfy `0 ≤ s < e ≤ duration` in seconds. -/
def CmdValid (st : EngineState) : AudioCommand → Prop
  | .LoadAudio d => AudioWF d
  | .SetLoopRegion (some r) =>
    ∀ a, st.audio = some a → 0 ≤ r.1 ∧ r.1 < r.2 ∧ r.2 ≤ a.duration
  | _ => True

/-- Frame count of the loaded audio, zero when none is loaded. -/
def audioFrames (st : EngineState) : ℕ :=
  match st.audio with
  | none => 0
  | some a => a.num_frames

/-- A stretch adapter that never has output ready: `receive_samples` always
returns zero frames, which the adapter contract allows. -/
def advOracle : StretchOracle := { recv := fun _ => [] }

/-- A two-frame mono buffer at 1 Hz (duration 2 s), as the decoder would
deliver it. -/
def sampleAudio : AudioData :=
  { samples := [0, 0], sample_rate := 1, channels := 1, duration := 2 }

/-- The engine state reached by `LoadAudio sampleAudio`, then
`SetLoopRegion (some (0, 1))` (valid: 0 < 1 ≤ duration 2), then `Play`. -/
def reachSt : EngineState :=
  ((((EngineState.new 1).handle_command (.LoadAudio sampleAudio)).1.handle_command
      (.SetLoopRegion (some (0, 1)))).1.handle_command .Play).1

/-- Fill-loop states visited when the engine plays `sampleAudio` with loop
region `(0, 1)` against an adapter that never delivers: only the position,
the receive counter and the stretcher's fed buffer vary. -/
def badFillSt (pos k : ℕ) (str : Option Stretcher) : FillSt :=
  { es := { audio := some sampleAudio, position := pos, playing := true, tempo := 1,
            loop_region := some (0, 1), stretcher := str, output_sample_rate := 1,
            frames_since_update := 0 },
    output := [0], out_pos := 0, k := k, events := [] }

/-- A one-frame mono buffer at 1 Hz, used to instantiate theorems at a
concrete input. -/
def wAudio : AudioData :=
  { samples := [0], sample_rate := 1, channels := 1, duration := 1 }

/-- A concrete engine state with `wAudio` loaded and playing. -/
def wState : EngineState :=
  { audio := some wAudio, position := 0, playing := true, tempo := 1,
    loop_region := none, stretcher := some (Stretcher.new 1 1),
    output_sample_rate := 1, frames_since_update := 0 }

/-- A mono buffer of 8192 zero samples at 1 Hz. -/
def a8192 : AudioData :=
  { samples := List.replicate 8192 0, sample_rate := 1, channels := 1, duration := 8192 }

/-! ## Peak-cache lemmas -/

lemma if_lt_eq_min (m s : ℚ) : (if s < m then s else m) = Min.min m s := by
  rcases lt_or_le s m with h | h
  · simp [h, min_eq_right h.le]
  · simp [not_lt.mpr h, min_eq_left h]

lemma if_gt_eq_max (m s : ℚ) : (if s > m then s else m) = Max.max m s := by
  rcases lt_or_le m s with h | h
  · simp [h, max_eq_right h.le]
  · simp [not_lt.mpr h, max_eq_left h]

lemma minmaxFold_eq (chunk : List ℚ) (init : ℚ × ℚ) :
    chunk.foldl
      (fun (mm : ℚ × ℚ) s => (if s < mm.1 then s else mm.1, if s > mm.2 then s else mm.2))
      init
      = chunk.foldl (fun mm s => (Min.min mm.1 s, Max.max mm.2 s)) init := by
  have hfun : (fun (mm : ℚ × ℚ) s => (if s < mm.1 then s else mm.1, if s > mm.2 then s else mm.2))
      = fun (mm : ℚ × ℚ) s => (Min.min mm.1 s, Max.max mm.2 s) := by
    funext mm s
    rw [if_lt_eq_min, if_gt_eq_max]
  rw [hfun]

lemma foldl_minmax_init (l : List ℚ) :
    ∀ init : ℚ × ℚ,
      (l.foldl (fun mm s => (Min.min mm.1 s, Max.max mm.2 s)) init).1 ≤ init.1 ∧
      init.2 ≤ (l.foldl (fun mm s => (Min.min mm.1 s, Max.max mm.2 s)) init).2 := by
  induction l with
  | nil => intro init; exact ⟨le_refl _, le_refl _⟩
  | cons a l ih =>
    intro init
    simp only [List.foldl_cons]
    exact ⟨le_trans (ih _).1 (min_le_left _ _), le_trans (le_max_left _ _) (ih _).2⟩

lemma foldl_minmax_mem (l : List ℚ) :
    ∀ (init : ℚ × ℚ) (x : ℚ), x ∈ l →
      (l.foldl (fun mm s => (Min.min mm.1 s, Max.max mm.2 s)) init).1 ≤ x ∧
      x ≤ (l.foldl (fun mm s => (Min.min mm.1 s, Max.max mm.2 s)) init).2 := by
  induction l with
  | nil => intro _ x hx; simp at hx
  | cons a l ih =>
    intro init x hx
    simp only [List.foldl_cons]
    rcases List.mem_cons.mp hx with rfl | hx2
    · exact ⟨le_trans (foldl_minmax_init l _).1 (min_le_right _ _),
        le_trans (le_max_right _ _) (foldl_minmax_init l _).2⟩
    · exact ih _ x hx2

lemma foldl_peak_init (l : List Peak) :
    ∀ init : ℚ × ℚ,
      (l.foldl (fun mm p => (Min.min mm.1 p.min, Max.max mm.2 p.max)) init).1 ≤ init.1 ∧
      init.2 ≤ (l.foldl (fun mm p => (Min.min mm.1 p.min, Max.max mm.2 p.max)) init).2 := by
  induction l with
  | nil => intro init; exact ⟨le_refl _, le_refl _⟩
  | cons a l ih =>
    intro init
    simp only [List.foldl_cons]
    exact ⟨le_trans (ih _).1 (min_le_left _ _), le_trans (le_max_left _ _) (ih _).2⟩

lemma foldl_peak_mem (l : List Peak) :
    ∀ (init : ℚ × ℚ) (q : Peak), q ∈ l →
      (l.foldl (fun mm p => (Min.min mm.1 p.min, Max.max mm.2 p.max)) init).1 ≤ q.min ∧
      q.max ≤ (l.foldl (fun mm p => (Min.min mm.1 p.min, Max.max mm.2 p.max)) init).2 := by
  induction l with
  | nil => intro _ q hq; simp at hq
  | cons a l ih =>
    intro init q hq
    simp only [List.foldl_cons]
    rcases List.mem_cons.mp hq with rfl | hq2
    · exact ⟨le_trans (foldl_peak_init l _).1 (min_le_right _ _),
        le_trans (le_max_right _ _) (foldl_peak_init l _).2⟩
    · exact ih _ q hq2

lemma chunksList_ne_nil_aux :
    ∀ (m n : ℕ) (xs : List ℚ), xs.length ≤ m → ∀ c ∈ chunksList n xs, c ≠ [] := by
  intro m
  induction m with
  | zero =>
    intro n xs hlen c hc
    have hxs : xs = [] := List.eq_nil_of_length_eq_zero (Nat.le_zero.mp hlen)
    rw [hxs, chunksList] at hc
    simp at hc
  | succ m ih =>
    intro n xs hlen c hc
    rw [chunksList] at hc
    split at hc
    case isTrue h =>
      rcases List.mem_cons.mp hc with rfl | hc2
      · intro hnil
        rcases List.take_eq_nil_iff.mp hnil with h0 | h0
        · omega
        · exact h.2 h0
      · refine ih n (xs.drop n) ?_ c hc2
        have hpos := List.length_pos.mpr h.2
        simp only [List.length_drop]
        omega
    case isFalse h => simp at hc

lemma mem_chunksList_ne_nil {n : ℕ} {xs : List ℚ} {c : List ℚ}
    (hc : c ∈ chunksList n xs) : c ≠ [] :=
  chunksList_ne_nil_aux xs.length n xs le_rfl c hc

lemma compute_peak_wf (ad : AudioData) :
    ∀ lvl ∈ (WaveformPeaks.compute ad).levels, ∀ p ∈ lvl.2, p.min ≤ p.max := by
  intro lvl hlvl p hp
  unfold WaveformPeaks.compute at hlvl
  simp only [List.mem_map] at hlvl
  obtain ⟨spp, _, rfl⟩ := hlvl
  unfold compute_peaks_at_resolution at hp
  simp only [List.mem_map] at hp
  obtain ⟨chunk, hchunk, rfl⟩ := hp
  have hne : chunk ≠ [] := mem_chunksList_ne_nil hchunk
  obtain ⟨x, hx⟩ := List.exists_mem_of_length_pos (List.length_pos.mpr hne)
  simp only [minmaxFold_eq]
  have h := foldl_minmax_mem chunk (f32Max, f32Min) x hx
  exact le_trans h.1 h.2

lemma selectLevel_mem (levels : List (ℕ × List Peak)) (t : ℚ) (h : levels ≠ []) :
    selectLevel levels t ∈ levels := by
  unfold selectLevel
  cases hf : levels.reverse.find? (fun l => decide ((l.1 : ℚ) ≤ t * 2)) with
  | some x =>
    simp only [hf, Option.getD_some]
    exact List.mem_reverse.mp (List.mem_of_find?_eq_some hf)
  | none =>
    simp only [hf, Option.getD_none]
    cases levels with
    | nil => exact absurd rfl h
    | cons a l => simp

lemma compute_levels_eq (ad : AudioData) :
    (WaveformPeaks.compute ad).levels =
      [(64, compute_peaks_at_resolution ad.to_mono 64),
       (256, compute_peaks_at_resolution ad.to_mono 256),
       (1024, compute_peaks_at_resolution ad.to_mono 1024),
       (4096, compute_peaks_at_resolution ad.to_mono 4096)] := rfl

lemma ratToUsize_natCast (n : ℕ) : ratToUsize (n : ℚ) = n := by
  unfold ratToUsize
  rw [Int.floor_natCast]
  exact Int.toNat_natCast n

lemma selectLevel_four (q1 q2 q3 q4 : List Peak) (t : ℚ) :
    (selectLevel [(64, q1), (256, q2), (1024, q3), (4096, q4)] t).1 = selSpp t := by
  unfold selectLevel selSpp
  have hrev : ([(64, q1), (256, q2), (1024, q3), (4096, q4)] :
      List (ℕ × List Peak)).reverse = [(4096, q4), (1024, q3), (256, q2), (64, q1)] := rfl
  rw [hrev]
  by_cases h4 : (4096 : ℚ) ≤ t * 2
  · simp [List.find?, h4]
  · by_cases h3 : (1024 : ℚ) ≤ t * 2
    · simp [List.find?, h4, h3]
    · by_cases h2 : (256 : ℚ) ≤ t * 2
      · simp [List.find?, h4, h3, h2]
      · by_cases h1 : (64 : ℚ) ≤ t * 2
        · simp [List.find?, h4, h3, h2, h1]
        · simp [List.find?, h4, h3, h2, h1]

lemma specCoarsest_four (q1 q2 q3 q4 : List Peak) (t : ℚ) :
    specCoarsestSatisfying [(64, q1), (256, q2), (1024, q3), (4096, q4)] t = selSpp t := by
  unfold specCoarsestSatisfying selSpp
  by_cases h4 : (4096 : ℚ) ≤ t * 2
  · have h3 : (1024 : ℚ) ≤ t * 2 := by linarith
    have h2 : (256 : ℚ) ≤ t * 2 := by linarith
    have h1 : (64 : ℚ) ≤ t * 2 := by linarith
    simp [List.filter, h4, h3, h2, h1, List.foldl]
  · by_cases h3 : (1024 : ℚ) ≤ t * 2
    · have h2 : (256 : ℚ) ≤ t * 2 := by linarith
      have h1 : (64 : ℚ) ≤ t * 2 := by linarith
      simp [List.filter, h4, h3, h2, h1, List.foldl]
    · by_cases h2 : (256 : ℚ) ≤ t * 2
      · have h1 : (64 : ℚ) ≤ t * 2 := by linarith
        simp [List.filter, h4, h3, h2, h1, List.foldl]
      · by_cases h1 : (64 : ℚ) ≤ t * 2
        · simp [List.filter, h4, h3, h2, h1, List.foldl]
        · simp [List.filter, h4, h3, h2, h1, List.foldl]

lemma selSpp_mono {t1 t2 : ℚ} (h : t1 ≤ t2) : selSpp t1 ≤ selSpp t2 := by
  unfold selSpp
  split_ifs with h1 h2 h3 h4 h5 h6 h7 h8 h9 h10 h11 h12 h13 h14 h15
  all_goals try rfl
  all_goals try (norm_num; done)
  all_goals exfalso
  all_goals linarith

lemma specFinest_four (q1 q2 q3 q4 : List Peak) (t : ℚ) :
    specFinestSatisfying [(64, q1), (256, q2), (1024, q3), (4096, q4)] t = 64 := by
  unfold specFinestSatisfying
  by_cases h4 : (4096 : ℚ) ≤ t * 2
  · have h3 : (1024 : ℚ) ≤ t * 2 := by linarith
    have h2 : (256 : ℚ) ≤ t * 2 := by linarith
    have h1 : (64 : ℚ) ≤ t * 2 := by linarith
    simp [List.filter, h4, h3, h2, h1, List.foldl]
  · by_cases h3 : (1024 : ℚ) ≤ t * 2
    · have h2 : (256 : ℚ) ≤ t * 2 := by linarith
      have h1 : (64 : ℚ) ≤ t * 2 := by linarith
      simp [List.filter, h4, h3, h2, h1, List.foldl]
    · by_cases h2 : (256 : ℚ) ≤ t * 2
      · have h1 : (64 : ℚ) ≤ t * 2 := by linarith
        simp [List.filter, h4, h3, h2, h1, List.foldl]
      · by_cases h1 : (64 : ℚ) ≤ t * 2
        · simp [List.filter, h4, h3, h2, h1, List.foldl]
        · simp [List.filter, h4, h3, h2, h1, List.foldl]

lemma slice_fold_wf (base : List Peak) (wb : ∀ q ∈ base, q.min ≤ q.max)
    (ps pe : ℕ) (hps : ps < base.length) :
    (((base.drop ps).take (Nat.max pe (ps + 1) - ps)).foldl
      (fun mm p => (Min.min mm.1 p.min, Max.max mm.2 p.max)) (f32Max, f32Min)).1 ≤
    (((base.drop ps).take (Nat.max pe (ps + 1) - ps)).foldl
      (fun mm p => (Min.min mm.1 p.min, Max.max mm.2 p.max)) (f32Max, f32Min)).2 := by
  have hlen : 0 < ((base.drop ps).take (Nat.max pe (ps + 1) - ps)).length := by
    rw [List.length_take, List.length_drop]
    refine lt_min ?_ ?_
    · have hmx : ps + 1 ≤ Nat.max pe (ps + 1) := le_max_right pe (ps + 1)
      omega
    · omega
  obtain ⟨q, hq⟩ := List.exists_mem_of_length_pos hlen
  have hqb : q ∈ base := List.mem_of_mem_drop (List.mem_of_mem_take hq)
  have h1 := foldl_peak_mem _ (f32Max, f32Min) q hq
  exact le_trans h1.1 (le_trans (wb q hqb) h1.2)

/-- C4: for audio whose mono mixdown has `N ≥ 1` samples and any integer
width `W ≥ 1`, `compute(audio).peaks_for_width(W, N)` returns exactly `W`
peaks, each with `min ≤ max`; degenerate inputs (`N = 0` or non-positive
width) yield the empty sequence. -/
theorem c4_peaks_for_width_roundtrip :
    (∀ (ad : AudioData) (W N : ℕ), 1 ≤ W → 1 ≤ N → ad.to_mono.length = N →
      ((WaveformPeaks.compute ad).peaks_for_width (W : ℚ) N).length = W ∧
      ∀ p ∈ (WaveformPeaks.compute ad).peaks_for_width (W : ℚ) N, p.min ≤ p.max)
    ∧ ∀ (wp : WaveformPeaks) (cw : ℚ) (N : ℕ), N = 0 ∨ cw ≤ 0 →
        wp.peaks_for_width cw N = [] := by
  constructor
  · intro ad W N hW hN _
    have hWq : (0 : ℚ) < (W : ℚ) := by exact_mod_cast Nat.lt_of_lt_of_le Nat.zero_lt_one hW
    have hguard : ¬(N = 0 ∨ (W : ℚ) ≤ 0) := by
      push_neg
      exact ⟨by omega, hWq⟩
    unfold WaveformPeaks.peaks_for_width
    rw [if_neg hguard]
    refine ⟨by simp only [List.length_map, List.length_range, ratToUsize_natCast], ?_⟩
    intro p hp
    simp only [List.mem_map, List.mem_range] at hp
    obtain ⟨i, _, hpe⟩ := hp
    have hmem : selectLevel (WaveformPeaks.compute ad).levels ((N : ℚ) / (W : ℚ))
        ∈ (WaveformPeaks.compute ad).levels := by
      apply selectLevel_mem
      rw [compute_levels_eq]
      simp
    have hwf := compute_peak_wf ad _ hmem
    split at hpe
    case isTrue _ =>
      subst hpe
      exact le_refl 0
    case isFalse hps =>
      subst hpe
      exact slice_fold_wf _ hwf _ _ (not_le.mp hps)
  · intro wp cw N h
    unfold WaveformPeaks.peaks_for_width
    rw [if_pos h]

theorem c4_peaks_for_width_roundtrip_witness :
    (1 ≤ 1 ∧ wAudio.to_mono.length = 1) ∧
      (((WaveformPeaks.compute wAudio).peaks_for_width ((1 : ℕ) : ℚ) 1).length = 1 ∧
        ∀ p ∈ (WaveformPeaks.compute wAudio).peaks_for_width ((1 : ℕ) : ℚ) 1,
          p.min ≤ p.max) :=
  ⟨⟨le_refl 1, rfl⟩,
    c4_peaks_for_width_roundtrip.1 wAudio 1 1 (le_refl 1) (le_refl 1) rfl⟩

/-- C5 counterexample: for a mono buffer of 8192 samples rendered at canvas
width 1 (target 8192 samples per pixel, so every precomputed level
qualifies), the base level `peaks_for_width` picks has 4096 samples per
peak — the coarsest qualifying level — while the claim's rule (finest,
smallest samples-per-peak, among the qualifying levels) picks 64. -/
theorem c5_counterexample :
    selectedSppFor (WaveformPeaks.compute a8192) 1 8192 ≠
      specFinestSatisfying (WaveformPeaks.compute a8192).levels
        (((8192 : ℕ) : ℚ) / (1 : ℚ)) := by
  have h1 : selectedSppFor (WaveformPeaks.compute a8192) 1 8192 = 4096 := by
    unfold selectedSppFor
    rw [compute_levels_eq, selectLevel_four]
    unfold selSpp
    norm_num
  have h2 : specFinestSatisfying (WaveformPeaks.compute a8192).levels
      (((8192 : ℕ) : ℚ) / (1 : ℚ)) = 64 := by
    rw [compute_levels_eq, specFinest_four]
  rw [h1, h2]
  decide

/-- C5 amended: the resampling base that `peaks_for_width(W, N)` uses is
the coarsest precomputed level (largest samples-per-peak) among those with
`samples_per_peak ≤ 2 × target_spp` where `target_spp = N / W`, falling
back to the finest available level (64 samples per peak) when no
precomputed level satisfies the bound. -/
theorem c5_level_selection_amended (ad : AudioData) (W N : ℕ)
    (hW : 1 ≤ W) (hN : 1 ≤ N) :
    selectedSppFor (WaveformPeaks.compute ad) (W : ℚ) N =
      specCoarsestSatisfying (WaveformPeaks.compute ad).levels ((N : ℚ) / (W : ℚ)) := by
  unfold selectedSppFor
  rw [compute_levels_eq, selectLevel_four, specCoarsest_four]

theorem c5_level_selection_amended_witness :
    (1 ≤ 2 ∧ 1 ≤ 8192) ∧
      selectedSppFor (WaveformPeaks.compute a8192) ((2 : ℕ) : ℚ) 8192 =
        specCoarsestSatisfying (WaveformPeaks.compute a8192).levels
          (((8192 : ℕ) : ℚ) / ((2 : ℕ) : ℚ)) :=
  ⟨⟨by norm_num, by norm_num⟩,
    c5_level_selection_amended a8192 2 8192 (by norm_num) (by norm_num)⟩

/-- C6: for a fixed buffer of `N ≥ 1` frames the samples-per-peak of the
level `peaks_for_width` selects is antitone in the canvas width: a wider
canvas gets an equal or finer level. -/
theorem c6_resolution_antitone (ad : AudioData) (N : ℕ) (W1 W2 : ℚ)
    (hN : 1 ≤ N) (hW1 : 1 ≤ W1) (h12 : W1 < W2) :
    selectedSppFor (WaveformPeaks.compute ad) W2 N ≤
      selectedSppFor (WaveformPeaks.compute ad) W1 N := by
  unfold selectedSppFor
  rw [compute_levels_eq, selectLevel_four, selectLevel_four]
  apply selSpp_mono
  have hW1pos : (0 : ℚ) < W1 := lt_of_lt_of_le one_pos hW1
  gcongr

theorem c6_resolution_antitone_witness :
    ((1 : ℕ) ≤ 1 ∧ (1 : ℚ) ≤ 1 ∧ (1 : ℚ) < 2) ∧
      selectedSppFor (WaveformPeaks.compute wAudio) 2 1 ≤
        selectedSppFor (WaveformPeaks.compute wAudio) 1 1 :=
  ⟨⟨le_refl 1, le_refl 1, by norm_num⟩,
    c6_resolution_antitone wAudio 1 1 2 (le_refl 1) (le_refl 1) (by norm_num)⟩

/-! ## Engine lemmas -/

lemma zeroFrom_zero (l : List ℚ) : zeroFrom l 0 = List.replicate l.length 0 := by
  unfold zeroFrom
  simp

lemma fillStep_spec (o : StretchOracle) (audio : AudioData) (oc ofr : ℕ) (s : FillSt) :
    (∃ s2, fillStep o audio oc ofr s = .cont s2 ∧
       s2.es.audio = s.es.audio ∧ s2.es.loop_region = s.es.loop_region ∧
       s2.es.playing = s.es.playing ∧ s2.es.position = s.es.position ∧
       s.out_pos < s2.out_pos ∧ s2.out_pos ≤ ofr)
    ∨ (∃ s2, fillStep o audio oc ofr s = .cont s2 ∧
       s2.es.audio = s.es.audio ∧ s2.es.loop_region = s.es.loop_region ∧
       s2.es.playing = s.es.playing ∧ s2.out_pos = s.out_pos ∧
       ((∃ sf ef, s.es.loop_region = some (sf, ef) ∧ s2.es.position = sf)
        ∨ (s.es.position < audio.num_frames ∧ s.es.position < s2.es.position ∧
           s2.es.position ≤ audio.num_frames ∧
           ∀ sf ef, s.es.loop_region = some (sf, ef) → s2.es.position ≤ ef)))
    ∨ (∃ s2, fillStep o audio oc ofr s = .done s2 ∧
       s2.es.audio = s.es.audio ∧ s2.es.loop_region = s.es.loop_region ∧
       s2.es.position = s.es.position) := by
  have hchunk : 0 < CHUNK_SIZE := by norm_num [CHUNK_SIZE]
  simp only [fillStep]
  set got := Nat.min ((o.recv s.k).length / audio.channels) (ofr - s.out_pos) with hgot
  by_cases hg : 0 < got
  · rw [if_pos hg]
    have hle : got ≤ ofr - s.out_pos := by
      rw [hgot]
      exact Nat.min_le_right _ _
    by_cases hfsu : POSITION_UPDATE_INTERVAL ≤ s.es.frames_since_update + got
    · rw [if_pos hfsu]
      left
      refine ⟨_, rfl, rfl, rfl, rfl, rfl, ?_, ?_⟩
      · show s.out_pos < s.out_pos + got
        omega
      · show s.out_pos + got ≤ ofr
        omega
    · rw [if_neg hfsu]
      left
      refine ⟨_, rfl, rfl, rfl, rfl, rfl, ?_, ?_⟩
      · show s.out_pos < s.out_pos + got
        omega
      · show s.out_pos + got ≤ ofr
        omega
  · rw [if_neg hg]
    by_cases hend : audio.num_frames ≤ s.es.position
    · rw [if_pos hend]
      rcases hl : s.es.loop_region with _ | ⟨sf, ef⟩
      · simp only [hl]
        right; right
        exact ⟨_, rfl, rfl, rfl, rfl⟩
      · simp only [hl]
        right; left
        exact ⟨_, rfl, rfl, rfl, rfl, rfl, Or.inl ⟨sf, ef, rfl, rfl⟩⟩
    · rw [if_neg hend]
      have hpos := not_le.mp hend
      rcases hl : s.es.loop_region with _ | ⟨sf, ef⟩
      · simp only [hl]
        right; left
        set feed := Nat.min CHUNK_SIZE (audio.num_frames - s.es.position) with hfd
        have hfeed1 : 0 < feed := by
          rw [hfd]
          exact lt_min hchunk (by omega)
        have hfeed2 : feed ≤ audio.num_frames - s.es.position := by
          rw [hfd]
          exact Nat.min_le_right _ _
        refine ⟨_, rfl, rfl, hl, rfl, rfl, Or.inr ⟨hpos, ?_, ?_, ?_⟩⟩
        · show s.es.position < s.es.position + feed
          omega
        · show s.es.position + feed ≤ audio.num_frames
          omega
        · intro sf2 ef2 hcontr
          simp at hcontr
      · simp only [hl]
        by_cases he : ef ≤ s.es.position
        · rw [if_pos he]
          right; left
          exact ⟨_, rfl, rfl, rfl, rfl, rfl, Or.inl ⟨sf, ef, rfl, rfl⟩⟩
        · rw [if_neg he]
          right; left
          set feed := Nat.min (Nat.min CHUNK_SIZE (audio.num_frames - s.es.position))
            (ef - s.es.position) with hfd
          have hfeed1 : 0 < feed := by
            rw [hfd]
            exact lt_min (lt_min hchunk (by omega)) (by omega)
          have hfeed2 : feed ≤ audio.num_frames - s.es.position := by
            rw [hfd]
            exact le_trans (Nat.min_le_left _ _) (Nat.min_le_right _ _)
          have hfeed3 : feed ≤ ef - s.es.position := by
            rw [hfd]
            exact Nat.min_le_right _ _
          refine ⟨_, rfl, rfl, hl, rfl, rfl, Or.inr ⟨hpos, ?_, ?_, ?_⟩⟩
          · show s.es.position < s.es.position + feed
            omega
          · show s.es.position + feed ≤ audio.num_frames
            omega
          · intro sf2 ef2 heq
            simp only [Option.some.injEq, Prod.mk.injEq] at heq
            obtain ⟨rfl, rfl⟩ := heq
            show s.es.position + feed ≤ ef
            omega

lemma fillLoop_bound (o : StretchOracle) (audio : AudioData) (oc ofr B : ℕ) :
    ∀ (fuel : ℕ) (s r : FillSt), fillLoop o audio oc ofr fuel s = some r →
      s.es.position ≤ B →
      (∀ sf ef, s.es.loop_region = some (sf, ef) → sf ≤ B ∧ ef ≤ B) →
      (s.es.loop_region = none → audio.num_frames ≤ B) →
      r.es.position ≤ B ∧ r.es.loop_region = s.es.loop_region ∧ r.es.audio = s.es.audio := by
  intro fuel
  induction fuel with
  | zero =>
    intro s r hrun
    simp [fillLoop] at hrun
  | succ n ih =>
    intro s r hrun hpos hloop hnone
    simp only [fillLoop] at hrun
    by_cases hlt : s.out_pos < ofr
    · rw [if_pos hlt] at hrun
      rcases fillStep_spec o audio oc ofr s with
          ⟨s2, hstep, ha, hlr, _, hpos2, _, _⟩ |
          ⟨s2, hstep, ha, hlr, _, _, hinner⟩ |
          ⟨s2, hstep, ha, hlr, hpos2⟩
      · rw [hstep] at hrun
        have hr := ih s2 r hrun (by rw [hpos2]; exact hpos)
          (by rw [hlr]; exact hloop) (by rw [hlr]; exact hnone)
        exact ⟨hr.1, by rw [hr.2.1, hlr], by rw [hr.2.2, ha]⟩
      · rw [hstep] at hrun
        have hb : s2.es.position ≤ B := by
          rcases hinner with ⟨sf, ef, hsome, hval⟩ | ⟨_, _, hle, hloopb⟩
          · rw [hval]
            exact (hloop sf ef hsome).1
          · rcases hcase : s.es.loop_region with _ | ⟨sf, ef⟩
            · exact le_trans hle (hnone hcase)
            · exact le_trans (hloopb sf ef hcase) (hloop sf ef hcase).2
        have hr := ih s2 r hrun hb (by rw [hlr]; exact hloop) (by rw [hlr]; exact hnone)
        exact ⟨hr.1, by rw [hr.2.1, hlr], by rw [hr.2.2, ha]⟩
      · rw [hstep] at hrun
        obtain rfl : s2 = r := Option.some.inj hrun
        exact ⟨by rw [hpos2]; exact hpos, hlr, ha⟩
    · rw [if_neg hlt] at hrun
      obtain rfl : s = r := Option.some.inj hrun
      exact ⟨hpos, rfl, rfl⟩

lemma fillLoop_term (o : StretchOracle) (audio : AudioData) (oc ofr : ℕ) :
    ∀ (fuel : ℕ) (s : FillSt), s.es.loop_region = none →
      (ofr - s.out_pos) + (audio.num_frames - s.es.position) < fuel →
      ∃ r, fillLoop o audio oc ofr fuel s = some r := by
  intro fuel
  induction fuel with
  | zero =>
    intro s _ hm
    omega
  | succ n ih =>
    intro s hl hm
    simp only [fillLoop]
    by_cases hlt : s.out_pos < ofr
    · rw [if_pos hlt]
      rcases fillStep_spec o audio oc ofr s with
          ⟨s2, hstep, _, hlr, _, hpos2, hout1, hout2⟩ |
          ⟨s2, hstep, _, hlr, _, hout, hinner⟩ |
          ⟨s2, hstep, _, _, _⟩
      · rw [hstep]
        refine ih s2 (by rw [hlr]; exact hl) ?_
        rw [hpos2]
        omega
      · rw [hstep]
        rcases hinner with ⟨sf, ef, hsome, _⟩ | ⟨hlt2, hinc, hle, _⟩
        · rw [hl] at hsome
          cases hsome
        · refine ih s2 (by rw [hlr]; exact hl) ?_
          rw [hout]
          omega
      · rw [hstep]
        exact ⟨s2, rfl⟩
    · rw [if_neg hlt]
      exact ⟨s, rfl⟩

lemma fill_buffer_cases (st : EngineState) (o : StretchOracle) (fuel : ℕ)
    (out : List ℚ) (ch : ℕ) (st2 : EngineState) (out2 : List ℚ) (ev : List AudioEvent)
    (h : st.fill_buffer o fuel out ch = some (st2, out2, ev)) :
    (st2 = st ∧ out2 = List.replicate out.length 0 ∧ ev = []) ∨
    (∃ audio s, st.audio = some audio ∧
       fillLoop o audio ch (out.length / ch) fuel
         { es := st, output := out, out_pos := 0, k := 0, events := [] } = some s ∧
       st2 = s.es ∧ out2 = s.output ∧ ev = s.events) := by
  unfold EngineState.fill_buffer at h
  by_cases hp : ¬ st.playing
  · rw [if_pos hp] at h
    simp only [Option.some.injEq, Prod.mk.injEq] at h
    exact Or.inl ⟨h.1.symm, h.2.1.symm, h.2.2.symm⟩
  · rw [if_neg hp] at h
    rcases haud : st.audio with _ | audio
    · rw [haud] at h
      simp only [Option.some.injEq, Prod.mk.injEq] at h
      exact Or.inl ⟨h.1.symm, h.2.1.symm, h.2.2.symm⟩
    · rw [haud] at h
      rcases hstr : st.stretcher with _ | str
      · rw [hstr] at h
        simp only [Option.some.injEq, Prod.mk.injEq] at h
        exact Or.inl ⟨h.1.symm, h.2.1.symm, h.2.2.symm⟩
      · rw [hstr] at h
        dsimp only at h
        rcases hfl : fillLoop o audio ch (out.length / ch) fuel
            { es := st, output := out, out_pos := 0, k := 0, events := [] } with _ | s
        · rw [hfl] at h
          exact Option.noConfusion h
        · rw [hfl] at h
          simp only [Option.map_some', Option.some.injEq, Prod.mk.injEq] at h
          exact Or.inr ⟨audio, s, rfl, hfl, h.1.symm, h.2.1.symm, h.2.2.symm⟩

/-- C1: while a loop region `(sf, ef)` with `sf ≤ ef` is active and the
position is at most `ef`, no `fill_buffer` run moves the position past
`ef` (the loop region itself is left unchanged); moreover, at any fill
iteration where the adapter yields no samples and the position has reached
or passed `ef`, the iteration wraps the position to `sf` and clears the
stretch adapter, feeding nothing and emitting nothing. -/
theorem c1_loop_region_bounds_position (st : EngineState) (sf ef : ℕ)
    (hl : st.loop_region = some (sf, ef)) (hse : sf ≤ ef) (hpos : st.position ≤ ef) :
    (∀ (o : StretchOracle) (fuel : ℕ) (out : List ℚ) (ch : ℕ)
       (st2 : EngineState) (out2 : List ℚ) (ev : List AudioEvent),
       st.fill_buffer o fuel out ch = some (st2, out2, ev) →
       st2.position ≤ ef ∧ st2.loop_region = some (sf, ef))
    ∧ ∀ (o : StretchOracle) (audio : AudioData) (oc ofr : ℕ) (s : FillSt),
        s.es.loop_region = some (sf, ef) → o.recv s.k = [] → ef ≤ s.es.position →
        fillStep o audio oc ofr s = .cont (wrapSt s sf) := by
  constructor
  · intro o fuel out ch st2 out2 ev hfb
    rcases fill_buffer_cases st o fuel out ch st2 out2 ev hfb with
        ⟨rfl, _, _⟩ | ⟨audio, s, haud, hfl, rfl, _, _⟩
    · exact ⟨hpos, hl⟩
    · have hb := fillLoop_bound o audio ch (out.length / ch) ef fuel _ s hfl hpos
        (by
          intro sf2 ef2 h2
          rw [hl] at h2
          simp only [Option.some.injEq, Prod.mk.injEq] at h2
          obtain ⟨rfl, rfl⟩ := h2
          exact ⟨hse, le_refl _⟩)
        (by
          intro h2
          rw [hl] at h2
          cases h2)
      refine ⟨hb.1, ?_⟩
      rw [hb.2.1]
      exact hl
  · intro o audio oc ofr s hsl hrecv hge
    simp only [fillStep, wrapSt]
    rw [hrecv]
    have hmin : Nat.min (([] : List ℚ).length / audio.channels) (ofr - s.out_pos) = 0 := by
      simp
    rw [hmin, if_neg (by omega : ¬ (0 : ℕ) < 0)]
    by_cases hend : audio.num_frames ≤ s.es.position
    · rw [if_pos hend]
      simp only [hsl]
    · rw [if_neg hend]
      simp only [hsl]
      rw [if_pos hge]

theorem c1_loop_region_bounds_position_witness :
    ({ wState with loop_region := some (0, 1) }.loop_region = some (0, 1) ∧
      (0 : ℕ) ≤ 1 ∧ { wState with loop_region := some (0, 1) }.position ≤ 1) ∧
    ((∀ (o : StretchOracle) (fuel : ℕ) (out : List ℚ) (ch : ℕ)
        (st2 : EngineState) (out2 : List ℚ) (ev : List AudioEvent),
        { wState with loop_region := some (0, 1) }.fill_buffer o fuel out ch =
          some (st2, out2, ev) →
        st2.position ≤ 1 ∧ st2.loop_region = some (0, 1))
      ∧ ∀ (o : StretchOracle) (audio : AudioData) (oc ofr : ℕ) (s : FillSt),
          s.es.loop_region = some (0, 1) → o.recv s.k = [] → 1 ≤ s.es.position →
          fillStep o audio oc ofr s = .cont (wrapSt s 0)) :=
  ⟨⟨rfl, Nat.zero_le 1, Nat.zero_le 1⟩,
    c1_loop_region_bounds_position { wState with loop_region := some (0, 1) } 0 1
      rfl (Nat.zero_le 1) (Nat.zero_le 1)⟩

/-- C9: `LoadAudio(data)` replaces the audio reference, resets the position
to 0, stops playback, clears the loop region, and installs a freshly built
stretcher configured with the data's sample rate and channel count and set
to the engine's current tempo, with nothing buffered; no event is sent. -/
theorem c9_load_audio (st : EngineState) (d : AudioData) :
    st.handle_command (.LoadAudio d) =
      ({ st with
          audio := some d, position := 0, playing := false, loop_region := none,
          stretcher := some { sample_rate := d.sample_rate, channels := d.channels,
                              tempo := st.tempo, fed := [] } }, []) := rfl

/-- C10: with no audio loaded, `Seek` and `SetLoopRegion` are complete
no-ops: the state is unchanged and no event is emitted. -/
theorem c10_no_audio_noop (st : EngineState) (t : ℚ) (r : Option (ℚ × ℚ))
    (h : st.audio = none) :
    st.handle_command (.Seek t) = (st, []) ∧
    st.handle_command (.SetLoopRegion r) = (st, []) := by
  constructor <;> simp only [EngineState.handle_command, h]

theorem c10_no_audio_noop_witness :
    (EngineState.new 1).audio = none ∧
    ((EngineState.new 1).handle_command (.Seek (1 / 2)) = (EngineState.new 1, []) ∧
      (EngineState.new 1).handle_command (.SetLoopRegion none) = (EngineState.new 1, [])) :=
  ⟨rfl, c10_no_audio_noop (EngineState.new 1) (1 / 2) none rfl⟩

/-- C2: with audio loaded, `Seek(t)` stores the frame index obtained from
`t` clamped to `[0, num_frames]`, clears the stretch adapter, and
immediately emits a single PositionChanged event — regardless of the
playing flag — whose value `v` satisfies `|v - t| < 1 / sample_rate` for
every `t ∈ [0, duration]`. -/
theorem c2_seek_clamps_and_reports (st : EngineState) (a : AudioData) (t : ℚ)
    (ha : st.audio = some a) (hsr : 0 < a.sample_rate)
    (hdur : a.duration = (a.num_frames : ℚ) / (a.sample_rate : ℚ)) :
    (st.handle_command (.Seek t)).1 =
      { st with
          position := Nat.min (ratToUsize (t * (a.sample_rate : ℚ))) a.num_frames,
          stretcher := st.stretcher.map Stretcher.clear } ∧
    (st.handle_command (.Seek t)).2 =
      [AudioEvent.PositionChanged
        ((Nat.min (ratToUsize (t * (a.sample_rate : ℚ))) a.num_frames : ℚ) /
          (a.sample_rate : ℚ))] ∧
    (0 ≤ t → t ≤ a.duration →
      |((Nat.min (ratToUsize (t * (a.sample_rate : ℚ))) a.num_frames : ℚ) /
          (a.sample_rate : ℚ)) - t| < 1 / (a.sample_rate : ℚ)) := by
  refine ⟨by simp only [EngineState.handle_command, ha], by simp only [EngineState.handle_command, ha], ?_⟩
  intro ht0 htd
  set S : ℚ := (a.sample_rate : ℚ) with hS
  have hS0 : (0 : ℚ) < S := by
    rw [hS]
    exact_mod_cast hsr
  have hts : 0 ≤ t * S := mul_nonneg ht0 hS0.le
  have hfl0 : (0 : ℤ) ≤ ⌊t * S⌋ := Int.floor_nonneg.mpr hts
  have hfle : ((⌊t * S⌋ : ℤ) : ℚ) ≤ t * S := Int.floor_le _
  have hflt : t * S < ⌊t * S⌋ + 1 := Int.lt_floor_add_one _
  have htn : t * S ≤ (a.num_frames : ℚ) := by
    rw [hdur] at htd
    calc t * S ≤ ((a.num_frames : ℚ) / S) * S := mul_le_mul_of_nonneg_right htd hS0.le
      _ = (a.num_frames : ℚ) := div_mul_cancel₀ _ (ne_of_gt hS0)
  have hmin : Nat.min (ratToUsize (t * S)) a.num_frames = ratToUsize (t * S) := by
    apply Nat.min_eq_left
    unfold ratToUsize
    rw [Int.toNat_le]
    calc ⌊t * S⌋ ≤ ⌊(a.num_frames : ℚ)⌋ := Int.floor_le_floor htn
      _ = a.num_frames := Int.floor_natCast _
  rw [hmin]
  have hcast : ((ratToUsize (t * S) : ℕ) : ℚ) = ((⌊t * S⌋ : ℤ) : ℚ) := by
    unfold ratToUsize
    exact_mod_cast congrArg (fun (z : ℤ) => (z : ℚ)) (Int.toNat_of_nonneg hfl0)
  rw [hcast]
  rw [abs_lt]
  constructor
  · have hmul : (t - 1 / S) * S = t * S - 1 := by
      field_simp
    have h1 : t - 1 / S < ((⌊t * S⌋ : ℤ) : ℚ) / S := by
      rw [lt_div_iff₀ hS0, hmul]
      linarith
    linarith
  · have h2 : ((⌊t * S⌋ : ℤ) : ℚ) / S ≤ t := by
      rw [div_le_iff₀ hS0]
      exact hfle
    have h3 : (0 : ℚ) < 1 / S := by positivity
    linarith

theorem c2_seek_clamps_and_reports_witness :
    (wState.audio = some wAudio ∧ 0 < wAudio.sample_rate ∧
      wAudio.duration = (wAudio.num_frames : ℚ) / (wAudio.sample_rate : ℚ)) ∧
    ((wState.handle_command (.Seek (1 / 2))).1 =
      { wState with
          position := Nat.min (ratToUsize ((1 / 2) * (wAudio.sample_rate : ℚ))) wAudio.num_frames,
          stretcher := wState.stretcher.map Stretcher.clear } ∧
    (wState.handle_command (.Seek (1 / 2))).2 =
      [AudioEvent.PositionChanged
        ((Nat.min (ratToUsize ((1 / 2) * (wAudio.sample_rate : ℚ))) wAudio.num_frames : ℚ) /
          (wAudio.sample_rate : ℚ))] ∧
    (0 ≤ (1 / 2 : ℚ) → (1 / 2 : ℚ) ≤ wAudio.duration →
      |((Nat.min (ratToUsize ((1 / 2) * (wAudio.sample_rate : ℚ))) wAudio.num_frames : ℚ) /
          (wAudio.sample_rate : ℚ)) - (1 / 2)| < 1 / (wAudio.sample_rate : ℚ))) :=
  ⟨⟨rfl, by norm_num [wAudio], by norm_num [wAudio, AudioData.num_frames]⟩,
    c2_seek_clamps_and_reports wState wAudio (1 / 2) rfl (by norm_num [wAudio])
      (by norm_num [wAudio, AudioData.num_frames])⟩

/-- C3: playing with audio loaded, a live stretcher, no loop region, the
position at or past the end, and an adapter with no samples ready, the
`fill_buffer` call stops playback, emits exactly one PlaybackFinished
event, and fills the whole output with silence; and every call made while
not playing leaves the state unchanged, writes an all-zero buffer and
emits nothing (so no further PlaybackFinished follows). -/
theorem c3_playback_finished_once :
    (∀ (st : EngineState) (a : AudioData) (o : StretchOracle) (fuel : ℕ)
       (out : List ℚ) (ch : ℕ),
       st.playing = true → st.audio = some a → st.stretcher.isSome = true →
       st.loop_region = none → a.num_frames ≤ st.position →
       (∀ k, o.recv k = []) → 0 < ch → ch ≤ out.length → 0 < fuel →
       st.fill_buffer o fuel out ch =
         some ({ st with playing := false }, List.replicate out.length 0,
           [AudioEvent.PlaybackFinished]))
    ∧ ∀ (st : EngineState) (o : StretchOracle) (fuel : ℕ) (out : List ℚ) (ch : ℕ),
        st.playing = false →
        st.fill_buffer o fuel out ch = some (st, List.replicate out.length 0, []) := by
  constructor
  · intro st a o fuel out ch hp ha hstr hl hpos ho hch hchlen hfuel
    obtain ⟨str, hstr2⟩ := Option.isSome_iff_exists.mp hstr
    unfold EngineState.fill_buffer
    rw [if_neg (by simp [hp])]
    rw [ha, hstr2]
    dsimp only
    have hofr : 0 < out.length / ch := by
      have := (Nat.le_div_iff_mul_le hch).mpr (by omega : 1 * ch ≤ out.length)
      omega
    cases fuel with
    | zero => omega
    | succ n =>
      have hstep : fillStep o a ch (out.length / ch)
          { es := st, output := out, out_pos := 0, k := 0, events := [] } =
          .done { es := { st with playing := false }, output := zeroFrom out 0,
                  out_pos := 0, k := 1,
                  events := [AudioEvent.PlaybackFinished] } := by
        simp only [fillStep]
        rw [ho 0]
        rw [if_neg (by simp)]
        rw [if_pos (by exact hpos)]
        simp only [hl]
        simp [zeroFrom]
      simp only [fillLoop]
      rw [if_pos (by exact hofr)]
      rw [hstep]
      simp only [Option.map_some', Option.some.injEq]
      rw [zeroFrom_zero, ha, hstr2]
  · intro st o fuel out ch hp
    unfold EngineState.fill_buffer
    rw [if_pos (by simp [hp])]

theorem c3_playback_finished_once_witness :
    ({ wState with position := 1 }.playing = true ∧
      { wState with position := 1 }.audio = some wAudio ∧
      { wState with position := 1 }.loop_region = none ∧
      wAudio.num_frames ≤ 1 ∧ (∀ k, advOracle.recv k = [])) ∧
    { wState with position := 1 }.fill_buffer advOracle 1 [0] 1 =
      some ({ { wState with position := 1 } with playing := false },
        List.replicate ([(0 : ℚ)] : List ℚ).length 0, [AudioEvent.PlaybackFinished]) :=
  ⟨⟨rfl, rfl, rfl, le_refl 1, fun _ => rfl⟩,
    c3_playback_finished_once.1 { wState with position := 1 } wAudio advOracle 1 [0] 1
      rfl rfl rfl rfl (le_refl 1) (fun _ => rfl) Nat.one_pos (le_refl 1) Nat.one_pos⟩

lemma ratToUsize_le_of_le_duration (a : AudioData) (s : ℚ)
    (hsr : 0 < a.sample_rate)
    (hdur : a.duration = (a.num_frames : ℚ) / (a.sample_rate : ℚ))
    (hs : s ≤ a.duration) :
    ratToUsize (s * (a.sample_rate : ℚ)) ≤ a.num_frames := by
  have hS0 : (0 : ℚ) < (a.sample_rate : ℚ) := by exact_mod_cast hsr
  have hsn : s * (a.sample_rate : ℚ) ≤ (a.num_frames : ℚ) := by
    rw [hdur] at hs
    calc s * (a.sample_rate : ℚ)
        ≤ ((a.num_frames : ℚ) / (a.sample_rate : ℚ)) * (a.sample_rate : ℚ) :=
          mul_le_mul_of_nonneg_right hs hS0.le
      _ = (a.num_frames : ℚ) := div_mul_cancel₀ _ (ne_of_gt hS0)
  unfold ratToUsize
  rw [Int.toNat_le]
  calc ⌊s * (a.sample_rate : ℚ)⌋ ≤ ⌊(a.num_frames : ℚ)⌋ := Int.floor_le_floor hsn
    _ = a.num_frames := Int.floor_natCast _

/-- C7: assuming the control surface pre-validates its inputs (audio from
the decoder; loop regions `0 ≤ s < e ≤ duration`), every `handle_command`
and every completed `fill_buffer` preserves the engine invariant, in
particular `0 ≤ position ≤ num_frames` of the loaded audio. -/
theorem c7_position_invariant_preserved :
    (∀ (st : EngineState) (cmd : AudioCommand),
       EngineInv st → CmdValid st cmd → EngineInv (st.handle_command cmd).1)
    ∧ ∀ (st : EngineState) (o : StretchOracle) (fuel : ℕ) (out : List ℚ) (ch : ℕ)
        (st2 : EngineState) (out2 : List ℚ) (ev : List AudioEvent),
        EngineInv st → st.fill_buffer o fuel out ch = some (st2, out2, ev) →
        EngineInv st2 := by
  constructor
  · intro st cmd hinv hval
    cases cmd with
    | LoadAudio d =>
      intro a ha
      simp only [EngineState.handle_command, Option.some.injEq] at ha
      subst ha
      refine ⟨hval, Nat.zero_le _, ?_⟩
      intro sf ef h
      simp only [EngineState.handle_command] at h
      cases h
    | Play =>
      intro a ha
      simp only [EngineState.handle_command] at ha ⊢
      by_cases hs : st.audio.isSome
      · rw [if_pos hs] at ha ⊢
        exact hinv a ha
      · rw [if_neg hs] at ha ⊢
        exact hinv a ha
    | Pause =>
      intro a ha
      exact hinv a ha
    | Stop =>
      intro a ha
      exact ⟨(hinv a ha).1, Nat.zero_le _, (hinv a ha).2.2⟩
    | Seek t =>
      rcases haud : st.audio with _ | a0
      · have heq : (st.handle_command (.Seek t)).1 = st := by
          simp only [EngineState.handle_command, haud]
        rw [heq]
        exact hinv
      · have heq : (st.handle_command (.Seek t)).1 =
            { st with
                position := Nat.min (ratToUsize (t * (a0.sample_rate : ℚ))) a0.num_frames,
                stretcher := st.stretcher.map Stretcher.clear } := by
          simp only [EngineState.handle_command, haud]
        rw [heq]
        intro a ha
        have ha2 : st.audio = some a := ha
        rw [haud] at ha2
        obtain rfl : a0 = a := Option.some.inj ha2
        exact ⟨(hinv a0 haud).1, Nat.min_le_right _ _,
          fun sf ef h => (hinv a0 haud).2.2 sf ef h⟩
    | SetTempo r =>
      intro a ha
      exact hinv a ha
    | SetLoopRegion r =>
      rcases haud : st.audio with _ | a0
      · have heq : (st.handle_command (.SetLoopRegion r)).1 = st := by
          simp only [EngineState.handle_command, haud]
        rw [heq]
        exact hinv
      · have heq : (st.handle_command (.SetLoopRegion r)).1 =
            { st with
                loop_region := r.map (fun rr =>
                  (ratToUsize (rr.1 * (a0.sample_rate : ℚ)),
                    Nat.min (ratToUsize (rr.2 * (a0.sample_rate : ℚ))) a0.num_frames)) } := by
          simp only [EngineState.handle_command, haud]
        rw [heq]
        intro a ha
        have ha2 : st.audio = some a := ha
        rw [haud] at ha2
        obtain rfl : a0 = a := Option.some.inj ha2
        refine ⟨(hinv a0 haud).1, (hinv a0 haud).2.1, ?_⟩
        rcases r with _ | ⟨sT, eT⟩
        · intro sf ef h
          exact Option.noConfusion h
        · intro sf ef h
          dsimp only at h
          rw [Option.map_some'] at h
          simp only [Option.some.injEq, Prod.mk.injEq] at h
          obtain ⟨rfl, rfl⟩ := h
          obtain ⟨hsr, _, hdur⟩ := (hinv a0 haud).1
          obtain ⟨h0, hlt, hle⟩ := hval a0 haud
          constructor
          · exact ratToUsize_le_of_le_duration a0 sT hsr hdur (le_trans hlt.le hle)
          · exact Nat.min_le_right _ _
    | Shutdown =>
      intro a ha
      exact hinv a ha
  · intro st o fuel out ch st2 out2 ev hinv hfb
    rcases fill_buffer_cases st o fuel out ch st2 out2 ev hfb with
        ⟨rfl, _, _⟩ | ⟨audio, s, haud, hfl, rfl, _, _⟩
    · exact hinv
    · have hb := fillLoop_bound o audio ch (out.length / ch) audio.num_frames fuel _ s hfl
        (hinv audio haud).2.1
        (fun sf ef h => (hinv audio haud).2.2 sf ef h)
        (fun _ => le_refl _)
      intro a ha
      rw [hb.2.2, haud] at ha
      obtain rfl : audio = a := Option.some.inj ha
      refine ⟨(hinv audio haud).1, hb.1, ?_⟩
      intro sf ef h
      rw [hb.2.1] at h
      exact (hinv audio haud).2.2 sf ef h

theorem c7_position_invariant_preserved_witness :
    EngineInv (EngineState.new 1) ∧
    EngineInv ((EngineState.new 1).handle_command .Play).1 := by
  have hInv : EngineInv (EngineState.new 1) := by
    intro a ha
    cases ha
  exact ⟨hInv, c7_position_invariant_preserved.1 (EngineState.new 1) .Play hInv trivial⟩

/-- C8 amended: `fill_buffer` terminates whenever no loop region is active,
under any stretch-adapter behaviour allowed by the contract: with fuel
exceeding `num_frames + out_frames` the fill loop always exits. (With an
active loop region and an adapter that keeps returning 0 frames, the loop
need not terminate — see the counterexample.) -/
theorem c8_amended_terminates_without_loop (st : EngineState) (o : StretchOracle)
    (out : List ℚ) (ch : ℕ) (fuel : ℕ) (hl : st.loop_region = none)
    (hfuel : audioFrames st + out.length / ch < fuel) :
    ∃ r, st.fill_buffer o fuel out ch = some r := by
  unfold EngineState.fill_buffer
  by_cases hp : ¬ st.playing
  · rw [if_pos hp]
    exact ⟨_, rfl⟩
  · rw [if_neg hp]
    rcases haud : st.audio with _ | audio
    · exact ⟨_, rfl⟩
    · rcases hstr : st.stretcher with _ | str
      · exact ⟨_, rfl⟩
      · dsimp only
        have hN : audioFrames st = audio.num_frames := by
          unfold audioFrames
          rw [haud]
        rw [hN] at hfuel
        obtain ⟨r, hr⟩ := fillLoop_term o audio ch (out.length / ch) fuel
          { es := st, output := out, out_pos := 0, k := 0, events := [] } hl
          (by
            dsimp only
            generalize out.length / ch = q at hfuel ⊢
            omega)
        exact ⟨(r.es, r.output, r.events), by rw [hr]; rfl⟩

theorem c8_amended_terminates_without_loop_witness :
    (wState.loop_region = none ∧ audioFrames wState + ([(0 : ℚ)] : List ℚ).length / 1 < 3) ∧
    ∃ r, wState.fill_buffer advOracle 3 [(0 : ℚ)] 1 = some r :=
  ⟨⟨rfl, by norm_num [audioFrames, wState, wAudio, AudioData.num_frames]⟩,
    c8_amended_terminates_without_loop wState advOracle [(0 : ℚ)] 1 3 rfl
      (by norm_num [audioFrames, wState, wAudio, AudioData.num_frames])⟩

lemma badLoop : ∀ (fuel pos k : ℕ) (str : Option Stretcher), pos ≤ 1 →
    fillLoop advOracle sampleAudio 1 1 fuel (badFillSt pos k str) = none := by
  intro fuel
  induction fuel with
  | zero =>
    intro pos k str _
    rfl
  | succ n ih =>
    intro pos k str hpos
    interval_cases pos
    · have hstep : fillStep advOracle sampleAudio 1 1 (badFillSt 0 k str) =
          .cont (badFillSt 1 (k + 1) (str.map (fun s => s.put_samples [0]))) := by
        norm_num [fillStep, badFillSt, advOracle, sampleAudio, AudioData.num_frames,
          CHUNK_SIZE, feedState, Stretcher.put_samples]
      simp only [fillLoop, hstep]
      rw [if_pos (by norm_num [badFillSt])]
      exact ih 1 (k + 1) _ (le_refl 1)
    · have hstep : fillStep advOracle sampleAudio 1 1 (badFillSt 1 k str) =
          .cont (badFillSt 0 (k + 1) (str.map Stretcher.clear)) := by
        norm_num [fillStep, badFillSt, advOracle, sampleAudio, AudioData.num_frames,
          CHUNK_SIZE, feedState, Stretcher.clear]
      simp only [fillLoop, hstep]
      rw [if_pos (by norm_num [badFillSt])]
      exact ih 0 (k + 1) _ (Nat.zero_le 1)

lemma reachSt_eq : reachSt =
    { audio := some sampleAudio, position := 0, playing := true, tempo := 1,
      loop_region := some (0, 1), stretcher := some (Stretcher.new 1 1),
      output_sample_rate := 1, frames_since_update := 0 } := by
  unfold reachSt
  simp only [EngineState.new, EngineState.handle_command, Stretcher.new, Stretcher.set_tempo]
  norm_num [ratToUsize, sampleAudio, AudioData.num_frames]

/-- C8 counterexample: from the reachable state obtained by loading a
2-second buffer, setting the valid loop region `(0 s, 1 s)` and playing,
an adapter that always reports 0 frames ready (allowed by the contract)
drives the fill loop forever: no fuel bound makes `fill_buffer` return. -/
theorem c8_counterexample_nonterminating :
    ¬ ∃ (fuel : ℕ) (r : EngineState × List ℚ × List AudioEvent),
        reachSt.fill_buffer advOracle fuel [(0 : ℚ)] 1 = some r := by
  rintro ⟨fuel, r, hr⟩
  rw [reachSt_eq] at hr
  unfold EngineState.fill_buffer at hr
  rw [if_neg (by simp)] at hr
  dsimp only at hr
  have hs0 : ({ es := { audio := some sampleAudio,
                        position := 0,
                        playing := true,
                        tempo := 1,
                        loop_region := some (0, 1),
                        stretcher := some (Stretcher.new 1 1),
                        output_sample_rate := 1,
                        frames_since_update := 0 },
                output := [(0 : ℚ)],
                out_pos := 0,
                k := 0,
                events := [] } : FillSt) =
      badFillSt 0 0 (some (Stretcher.new 1 1)) := rfl
  rw [hs0] at hr
  have hlen : ([(0 : ℚ)] : List ℚ).length / 1 = 1 := rfl
  rw [hlen] at hr
  rw [badLoop fuel 0 0 (some (Stretcher.new 1 1)) (Nat.zero_le 1)] at hr
  exact Option.noConfusion hr
